import Mathlib

/-!
Shallow embedding of the `prehash` crate (src/lib.rs, src/with_hash.rs,
src/map.rs, src/rc.rs, src/alloc.rs) and proofs of its specified properties.

Modelling conventions:
* The process-wide keyed hash function `crate::hash` is randomly seeded and
  external to the core, so it is modelled as an arbitrary parameter
  `h : α → Nat` (hash values are only stored and compared, never combined
  arithmetically, so their 64-bit width is immaterial to the claims).
* Rust `usize` layout arithmetic uses checked operations against
  `isize::MAX` exactly as `std::alloc::Layout` does; `.expect`/`.unwrap`
  panics are modelled as `Option.none`.
* Slices are modelled as `List`; the byte copy `copy_from_nonoverlapping`
  of `len` elements starting at the payload offset is modelled as reading
  the `i`-th source element into the `i`-th cell of the fresh payload
  region (`List.ofFn`).
* Allocator interaction is made observable through an event trace so that
  "allocates", "allocates nothing before panicking" are provable.
-/

set_option autoImplicit false

namespace Prehash

universe u v

/-! ## `std::alloc::Layout` model (64-bit target) -/

/-- `isize::MAX` on the 64-bit target. -/
def isizeMax : Nat := 2 ^ 63 - 1

/-- `usize::MAX` on the 64-bit target. -/
def usizeMax : Nat := 2 ^ 64 - 1

/-- `std::alloc::Layout`: a size in bytes and a power-of-two alignment. -/
structure Layout where
  size : Nat
  align : Nat
  deriving Repr, DecidableEq

/-- `Layout::from_size_align`: valid only when the size, rounded up to the
alignment, does not exceed `isize::MAX`. -/
def Layout.from_size_align (size align : Nat) : Option Layout :=
  if size ≤ isizeMax - (align - 1) then some ⟨size, align⟩ else none

/-- `Layout::new::<u64>()` (also the layout of `Cell<usize>` on 64-bit). -/
def Layout.u64 : Layout := ⟨8, 8⟩

/-- `Layout::array::<T>(n)` for an element type of size `sizeT` and
alignment `alignT`: checked multiplication, then the `from_size_align`
validity check. -/
def Layout.array (sizeT alignT n : Nat) : Option Layout :=
  Layout.from_size_align (sizeT * n) alignT

/-- The least multiple of `a` that is `≥ n` (`a > 0`); used for padding. -/
def roundUp (n a : Nat) : Nat := (n + a - 1) / a * a

/-- `Layout::extend`: place `next` after `self` with padding for `next`'s
alignment; returns the combined layout and the field offset, or `none` on
overflow of the checked size arithmetic. -/
def Layout.extend (self next : Layout) : Option (Layout × Nat) :=
  let newAlign := max self.align next.align
  let offset := roundUp self.size next.align
  (Layout.from_size_align (offset + next.size) newAlign).map fun l => (l, offset)

/-- `Layout::pad_to_align`: round the size up to the alignment. -/
def Layout.pad_to_align (l : Layout) : Layout :=
  ⟨roundUp l.size l.align, l.align⟩

/-- Observable allocator/panic events of a construction
(`crate::alloc::alloc` calls and `expect`/`unwrap` panics). -/
inductive AllocEvent where
  | alloc (layout : Layout)
  | panicked
  deriving Repr, DecidableEq

/-! ## `WithHash` (src/with_hash.rs) -/

/-- `WithHash<T>`: a value together with its pre-computed hash
(`#[repr(C)]` struct `{ hash: u64, value: T }`). -/
structure WithHash (α : Type u) where
  hash : Nat
  value : α
  deriving Repr, DecidableEq

/-- `impl<T: Hash> From<T> for WithHash<T>`: computes `hash(&value)` once
and stores it alongside the value. -/
def WithHash.fromValue {α : Type u} (h : α → Nat) (value : α) : WithHash α :=
  { hash := h value, value := value }

/-- `PreHash::precomputed_hash` for `WithHash<T>`: reads the stored field,
no hashing. -/
def WithHash.precomputed_hash {α : Type u} (self_ : WithHash α) : Nat :=
  self_.hash

/-- `PreHash::hashed_value` for `WithHash<T>`: reference to the stored
value. -/
def WithHash.hashed_value {α : Type u} (self_ : WithHash α) : α :=
  self_.value

/-- `WithHash::<[T]>::slice_layout(len)`: `u64` header layout extended by
the element array layout, padded to alignment; `none` models the
`expect("layout computation overflow")` panics. Parametrised by the
element size and alignment. -/
def WithHash.slice_layout (sizeT alignT len : Nat) : Option (Layout × Nat) :=
  match Layout.array sizeT alignT len with
  | none => none
  | some value_layout =>
    match Layout.u64.extend value_layout with
    | none => none
    | some (layout, offset) => some (layout.pad_to_align, offset)

/-- `WithHash::<[T]>::initialize(struct_ptr, value_offset, input_slice)`:
writes `hash(input_slice)` at the header and copies the `len` source
elements one by one into the fresh payload region. -/
def WithHash.initSlice {τ : Type u} (h : List τ → Nat) (input_slice : List τ) :
    WithHash (List τ) :=
  { hash := h input_slice
    value := List.ofFn fun i : Fin input_slice.length => input_slice.get i }

/-- `WithHash::<[T]>::new_raw_boxed_slice`: computes the slice layout
(panicking on overflow before anything else), allocates it, then
initializes header and payload. Returns the constructed carrier (`none`
models the panic) paired with the allocator event trace. -/
def WithHash.new_raw_boxed_slice {τ : Type u} (sizeT alignT : Nat) (h : List τ → Nat)
    (input_slice : List τ) : Option (WithHash (List τ)) × List AllocEvent :=
  match WithHash.slice_layout sizeT alignT input_slice.length with
  | none => (none, [AllocEvent.panicked])
  | some (layout, _value_offset) =>
    (some (WithHash.initSlice h input_slice), [AllocEvent.alloc layout])

/-- `impl<T: Copy + Hash> From<&[T]> for Box<WithHash<[T]>>`. -/
def boxWithHashFromSlice {τ : Type u} (sizeT alignT : Nat) (h : List τ → Nat)
    (input_slice : List τ) : Option (WithHash (List τ)) × List AllocEvent :=
  WithHash.new_raw_boxed_slice sizeT alignT h input_slice

/-! ## `Rc` / `RcBox` (src/rc.rs) -/

/-- `RcBox<T>`: `#[repr(C)]` struct `{ refcount: Cell<usize>, value: T }`. -/
structure RcBox (α : Type u) where
  refcount : Nat
  value : α
  deriving Repr, DecidableEq

/-- `rcbox_layout_and_value_offset`: the `Cell<usize>` header layout
extended by the value layout, padded; `none` models the `.unwrap()`
panic on overflow. -/
def rcbox_layout_and_value_offset (value_layout : Layout) : Option (Layout × Nat) :=
  (Layout.u64.extend value_layout).map fun p => (p.1.pad_to_align, p.2)

/-- `RcBox::<WithHash<[T]>>::new_withhash_slice`: computes the `WithHash`
slice layout, extends the refcount header with it, allocates once, writes
`refcount = 1`, then delegates to `WithHash::initialize` for the
hash+payload region. `none` models the layout-overflow panics. -/
def RcBox.new_withhash_slice {τ : Type u} (sizeT alignT : Nat) (h : List τ → Nat)
    (input_slice : List τ) : Option (RcBox (WithHash (List τ))) × List AllocEvent :=
  match WithHash.slice_layout sizeT alignT input_slice.length with
  | none => (none, [AllocEvent.panicked])
  | some (withhash_layout, _slice_offset) =>
    match rcbox_layout_and_value_offset withhash_layout with
    | none => (none, [AllocEvent.panicked])
    | some (layout, _rcvalue_offset) =>
      (some { refcount := 1, value := WithHash.initSlice h input_slice },
       [AllocEvent.alloc layout])

/-- `impl<T: Copy + Hash> From<&[T]> for Rc<WithHash<[T]>>`. -/
def rcWithHashFromSlice {τ : Type u} (sizeT alignT : Nat) (h : List τ → Nat)
    (input_slice : List τ) : Option (RcBox (WithHash (List τ))) × List AllocEvent :=
  RcBox.new_withhash_slice sizeT alignT h input_slice

/-! ### Reference-count lifecycle model

The observable state of one `RcBox` allocation together with ghost
instrumentation: the number of live `Rc` handles, whether the block was
deallocated, how many `dealloc` / `drop_in_place` calls it received,
whether the block was ever touched after deallocation, and whether the
`checked_add` in `Clone` panicked. -/
structure RcState where
  /-- The `Cell<usize>` inside the block (stale once `freed`). -/
  refcount : Nat
  /-- Ghost: number of live `Rc` handles to the block. -/
  handles : Nat
  /-- The block's memory has been returned to the allocator. -/
  freed : Bool
  /-- Number of `std::alloc::dealloc` calls on the block. -/
  deallocs : Nat
  /-- Number of `drop_in_place` calls on the payload. -/
  payloadDrops : Nat
  /-- The block was read or written after being freed. -/
  invalidAccess : Bool
  /-- The `checked_add(1).unwrap()` in `Clone` panicked. -/
  panicked : Bool
  deriving Repr, DecidableEq

/-- `Rc::new(value)`: one block with `refcount = 1`, one handle. -/
def RcState.new : RcState :=
  { refcount := 1, handles := 1, freed := false, deallocs := 0
    payloadDrops := 0, invalidAccess := false, panicked := false }

/-- `impl Clone for Rc<T>`: reads the refcount cell (an access to the
block), increments it with `checked_add(1).unwrap()`, and creates one more
handle. -/
def RcState.clone (s : RcState) : RcState :=
  if s.freed then { s with invalidAccess := true } else
  if s.refcount + 1 > usizeMax then { s with panicked := true } else
  { s with refcount := s.refcount + 1, handles := s.handles + 1 }

/-- `impl Drop for Rc<T>`: reads the refcount cell; if the decremented
count is nonzero it is written back, otherwise the payload is dropped in
place and the block deallocated. One handle goes away either way. -/
def RcState.dropHandle (s : RcState) : RcState :=
  if s.freed then { s with invalidAccess := true, handles := s.handles - 1 } else
  let new_count := s.refcount - 1
  if new_count ≠ 0 then
    { s with refcount := new_count, handles := s.handles - 1 }
  else
    { s with handles := s.handles - 1, freed := true
             deallocs := s.deallocs + 1, payloadDrops := s.payloadDrops + 1 }

/-- `n` successive clones. -/
def RcState.cloneN (n : Nat) (s : RcState) : RcState :=
  match n with
  | 0 => s
  | n + 1 => RcState.cloneN n s.clone

/-- `n` successive handle drops. -/
def RcState.dropN (n : Nat) (s : RcState) : RcState :=
  match n with
  | 0 => s
  | n + 1 => RcState.dropN n s.dropHandle

/-! ## `PreHashMap` (src/map.rs)

The `PreHash` trait is modelled as an explicit capability record (its two
associated functions), and the hashbrown table engine as its raw-entry
contract: a sequence of occupied entries, each stored under an explicit
64-bit hash, searched by explicit hash plus an equality predicate. The
engine is given hashes, it never computes one (`NotAHasher` implements no
`BuildHasher`). -/

/-- The `PreHash` trait: `precomputed_hash` and `hashed_value` for a key
type `κ` whose `Hashed` associated type is `η`. -/
structure PreHashCap (κ : Type u) (η : Type v) where
  precomputed_hash : κ → Nat
  hashed_value : κ → η

/-- The `PreHash` impl of `WithHash<T>`. -/
def WithHash.cap {α : Type u} : PreHashCap (WithHash α) α :=
  { precomputed_hash := WithHash.precomputed_hash
    hashed_value := WithHash.hashed_value }

/-- Hashbrown's `RawEntryBuilder::from_hash(hash, is_match)` contract:
the first occupied entry stored under exactly `hash` for which `is_match`
holds on the stored key. -/
def hbFromHash {κ : Type u} {ν : Type v} (entries : List (Nat × κ × ν)) (hash : Nat)
    (is_match : κ → Bool) : Option (κ × ν) :=
  match entries with
  | [] => none
  | (h0, k0, v0) :: rest =>
    if h0 = hash ∧ is_match k0 then some (k0, v0) else hbFromHash rest hash is_match

/-- Hashbrown's `RawOccupiedEntryMut::insert(value)` effect on the table:
the first entry matching the explicit hash and predicate keeps its stored
hash and key and gets the new value; every other entry is untouched. -/
def hbReplaceValue {κ : Type u} {ν : Type v} (entries : List (Nat × κ × ν)) (hash : Nat)
    (is_match : κ → Bool) (value : ν) : List (Nat × κ × ν) :=
  match entries with
  | [] => []
  | (h0, k0, v0) :: rest =>
    if h0 = hash ∧ is_match k0 then (h0, k0, value) :: rest
    else (h0, k0, v0) :: hbReplaceValue rest hash is_match value

/-- `PreHashMap<K, V>`: a hashbrown table with the `NotAHasher` marker,
i.e. the entries with their explicitly supplied hashes and nothing the
engine could hash with. -/
structure PreHashMap (κ : Type u) (ν : Type v) where
  hashbrown : List (Nat × κ × ν)
  deriving Repr, DecidableEq

/-- `PreHashMap::new()`. -/
def PreHashMap.new (κ : Type u) (ν : Type v) : PreHashMap κ ν := ⟨[]⟩

/-- `PreHashMap::raw_entry(key)` for a query type `χ` whose `Hashed` type
is `Equivalent` to the key's: extracts the precomputed hash of the query
and asks the engine for the entry matching that explicit hash whose
stored key's hashed value is equivalent to the query's. -/
def PreHashMap.raw_entry {κ : Type u} {η : Type v} {ν : Type v} {χ : Type u} {θ : Type v}
    (capK : PreHashCap κ η) (capQ : PreHashCap χ θ) (eqv : θ → η → Bool)
    (self : PreHashMap κ ν) (key : χ) : Option (κ × ν) :=
  let hash := capQ.precomputed_hash key
  hbFromHash self.hashbrown hash fun candidate =>
    eqv (capQ.hashed_value key) (capK.hashed_value candidate)

/-- `PreHashMap::get(key)`. -/
def PreHashMap.get {κ : Type u} {η : Type v} {ν : Type v} {χ : Type u} {θ : Type v}
    (capK : PreHashCap κ η) (capQ : PreHashCap χ θ) (eqv : θ → η → Bool)
    (self : PreHashMap κ ν) (key : χ) : Option ν :=
  (PreHashMap.raw_entry capK capQ eqv self key).map fun kv => kv.2

/-- `PreHashMap::insert(key, value)`, instrumented: the result, the new
map, the number of `PreHash::precomputed_hash(&key)` invocations made
during the call, and the explicit hash values handed to the engine.

Mirrors src/map.rs: `raw_entry_mut(&key)` computes `precomputed_hash`
once and supplies it to `from_hash`; the `Occupied` arm replaces the
value in place; the `Vacant` arm computes `precomputed_hash(&key)` a
second time and supplies it to `insert_with_hasher`, which stores the
entry under that hash. The key's `Hashed` type is `Eq`, and hashbrown's
blanket `impl Equivalent` compares with `==`. -/
def PreHashMap.insertInstr {κ : Type u} {η : Type v} {ν : Type v} [DecidableEq η]
    (capK : PreHashCap κ η) (self : PreHashMap κ ν) (key : κ) (value : ν) :
    (Option ν × PreHashMap κ ν) × Nat × List Nat :=
  let hash := capK.precomputed_hash key
  let is_match := fun candidate =>
    decide (capK.hashed_value key = capK.hashed_value candidate)
  match hbFromHash self.hashbrown hash is_match with
  | some (_k, old_value) =>
    ((some old_value, ⟨hbReplaceValue self.hashbrown hash is_match value⟩), 1, [hash])
  | none =>
    let hash2 := capK.precomputed_hash key
    ((none, ⟨(hash2, key, value) :: self.hashbrown⟩), 2, [hash, hash2])

/-- `PreHashMap::insert(key, value)`: result and new map. -/
def PreHashMap.insert {κ : Type u} {η : Type v} {ν : Type v} [DecidableEq η]
    (capK : PreHashCap κ η) (self : PreHashMap κ ν) (key : κ) (value : ν) :
    Option ν × PreHashMap κ ν :=
  (PreHashMap.insertInstr capK self key value).1

/-- `PreHashMap::get`, instrumented with the explicit hash values handed
to the engine during the call. -/
def PreHashMap.getInstr {κ : Type u} {η : Type v} {ν : Type v} {χ : Type u} {θ : Type v}
    (capK : PreHashCap κ η) (capQ : PreHashCap χ θ) (eqv : θ → η → Bool)
    (self : PreHashMap κ ν) (key : χ) : Option ν × List Nat :=
  (PreHashMap.get capK capQ eqv self key, [capQ.precomputed_hash key])

/-- Builds a map by inserting carriers `WithHash::from(k)` mapped to their
values, left to right (the scenario of spec §8.4/§8.6). -/
def buildFromPairs {α : Type u} {ν : Type u} [DecidableEq α] (h : α → Nat)
    (pairs : List (α × ν)) : PreHashMap (WithHash α) ν :=
  pairs.foldl
    (fun m p => (PreHashMap.insert WithHash.cap m (WithHash.fromValue h p.1) p.2).2)
    (PreHashMap.new (WithHash α) ν)

/-! ## `PreHash` impls for the wrapper types (src/with_hash.rs lines 55-113)

Each Rust ownership/reference wrapper around `WithHash<T>` is modelled as
a single-field structure whose field is the pointee; each impl reads the
`hash`/`value` fields of the pointee through the wrapper, computing
nothing. -/

/-- `&WithHash<T>` (plain shared reference). -/
structure RefWithHash (α : Type u) where
  pointee : WithHash α

/-- `impl PreHash for &WithHash<T>`. -/
def RefWithHash.cap {α : Type u} : PreHashCap (RefWithHash α) α :=
  { precomputed_hash := fun self_ => self_.pointee.hash
    hashed_value := fun self_ => self_.pointee.value }

/-- `&mut WithHash<T>` (exclusive reference). -/
structure RefMutWithHash (α : Type u) where
  pointee : WithHash α

/-- `impl PreHash for &mut WithHash<T>`. -/
def RefMutWithHash.cap {α : Type u} : PreHashCap (RefMutWithHash α) α :=
  { precomputed_hash := fun self_ => self_.pointee.hash
    hashed_value := fun self_ => self_.pointee.value }

/-- `Box<WithHash<T>>` (owning box). -/
structure BoxWithHash (α : Type u) where
  pointee : WithHash α

/-- `impl PreHash for Box<WithHash<T>>`. -/
def BoxWithHash.cap {α : Type u} : PreHashCap (BoxWithHash α) α :=
  { precomputed_hash := fun self_ => self_.pointee.hash
    hashed_value := fun self_ => self_.pointee.value }

/-- `std::rc::Rc<WithHash<T>>` (single-owner-thread shared pointer). -/
structure StdRcWithHash (α : Type u) where
  pointee : WithHash α

/-- `impl PreHash for std::rc::Rc<WithHash<T>>`. -/
def StdRcWithHash.cap {α : Type u} : PreHashCap (StdRcWithHash α) α :=
  { precomputed_hash := fun self_ => self_.pointee.hash
    hashed_value := fun self_ => self_.pointee.value }

/-- `std::sync::Arc<WithHash<T>>` (multi-thread shared pointer). -/
structure StdArcWithHash (α : Type u) where
  pointee : WithHash α

/-- `impl PreHash for std::sync::Arc<WithHash<T>>`. -/
def StdArcWithHash.cap {α : Type u} : PreHashCap (StdArcWithHash α) α :=
  { precomputed_hash := fun self_ => self_.pointee.hash
    hashed_value := fun self_ => self_.pointee.value }

/-! ## Theorems -/

variable {α : Type u} {ν : Type u}

/-- C1: For every hashable value `v`, `WithHash::from(v)` stores the hash
computed at construction: `precomputed_hash` returns `hash(v)`,
`hashed_value` returns the stored `v`, and — `precomputed_hash` being a
pure read of the stored field — repeated calls on the same carrier return
the same `u64`. -/
theorem withhash_from_stores_hash (h : α → Nat) (v : α) :
    WithHash.precomputed_hash (WithHash.fromValue h v) = h v
    ∧ WithHash.hashed_value (WithHash.fromValue h v) = v
    ∧ ∀ w : WithHash α, WithHash.precomputed_hash w = WithHash.precomputed_hash w := by
  exact ⟨rfl, rfl, fun _ => rfl⟩

/-- C9: `PreHash` is implemented for each common reference/ownership
wrapper around the carrier — `&WithHash<T>`, `&mut WithHash<T>`,
`Box<WithHash<T>>`, `std::rc::Rc<WithHash<T>>` (single-owner-thread
shared pointer) and `std::sync::Arc<WithHash<T>>` (multi-thread shared
pointer) — and for each wrapper around a carrier `c` the impl returns
exactly the carrier's stored hash and underlying value, recomputing
nothing. -/
theorem prehash_wrapper_impls (c : WithHash α) :
    (RefWithHash.cap.precomputed_hash ⟨c⟩ = WithHash.cap.precomputed_hash c
      ∧ RefWithHash.cap.hashed_value ⟨c⟩ = WithHash.cap.hashed_value c)
    ∧ (RefMutWithHash.cap.precomputed_hash ⟨c⟩ = WithHash.cap.precomputed_hash c
      ∧ RefMutWithHash.cap.hashed_value ⟨c⟩ = WithHash.cap.hashed_value c)
    ∧ (BoxWithHash.cap.precomputed_hash ⟨c⟩ = WithHash.cap.precomputed_hash c
      ∧ BoxWithHash.cap.hashed_value ⟨c⟩ = WithHash.cap.hashed_value c)
    ∧ (StdRcWithHash.cap.precomputed_hash ⟨c⟩ = WithHash.cap.precomputed_hash c
      ∧ StdRcWithHash.cap.hashed_value ⟨c⟩ = WithHash.cap.hashed_value c)
    ∧ (StdArcWithHash.cap.precomputed_hash ⟨c⟩ = WithHash.cap.precomputed_hash c
      ∧ StdArcWithHash.cap.hashed_value ⟨c⟩ = WithHash.cap.hashed_value c) := by
  exact ⟨⟨rfl, rfl⟩, ⟨rfl, rfl⟩, ⟨rfl, rfl⟩, ⟨rfl, rfl⟩, ⟨rfl, rfl⟩⟩

/-- C5: The map never computes a hash internally. Every hash handed to
the table engine by `get` or by `insert` is obtained exclusively through
the `PreHash` capability (`precomputed_hash` of the query/key): `get`
supplies exactly `[precomputed_hash query]`, and `insert` supplies either
`[precomputed_hash key]` (occupied) or `[precomputed_hash key,
precomputed_hash key]` (vacant). The engine itself (`hbFromHash`,
`hbReplaceValue`, the `insert_with_hasher` store) only consumes these
explicit hashes — the `NotAHasher` marker gives it no hash function, so
no code path of the map invokes a hashing primitive on a key. -/
theorem map_uses_only_precomputed_hashes {η : Type v} {ν' : Type v} {χ : Type u} {θ : Type v}
    [DecidableEq η] (capK : PreHashCap α η) (capQ : PreHashCap χ θ) (eqv : θ → η → Bool)
    (m : PreHashMap α ν') (q : χ) (k : α) (v : ν') :
    (PreHashMap.getInstr capK capQ eqv m q).2 = [capQ.precomputed_hash q]
    ∧ (PreHashMap.getInstr capK capQ eqv m q).1 = PreHashMap.get capK capQ eqv m q
    ∧ ((PreHashMap.insertInstr capK m k v).2.2 = [capK.precomputed_hash k]
      ∨ (PreHashMap.insertInstr capK m k v).2.2
          = [capK.precomputed_hash k, capK.precomputed_hash k]) := by
  refine ⟨rfl, rfl, ?_⟩
  cases h : hbFromHash m.hashbrown (capK.precomputed_hash k) fun candidate =>
      decide (capK.hashed_value k = capK.hashed_value candidate) with
  | none => exact Or.inr (by simp [PreHashMap.insertInstr, h])
  | some kv => exact Or.inl (by simp [PreHashMap.insertInstr, h])

/-- C6 (counterexample): inserting into the empty map takes the vacant
path of `PreHashMap::insert`, which calls `PreHash::precomputed_hash(&key)`
twice — once inside `raw_entry_mut` and once again in the `Vacant` arm —
so the hash is not computed exactly once during that call. -/
theorem insert_vacant_two_hash_calls :
    ¬ (PreHashMap.insertInstr WithHash.cap (PreHashMap.new (WithHash Nat) Nat)
        (WithHash.fromValue (fun n => n) 0) 0).2.1 = 1 := by
  decide

/-- C6 (amended): during one call of `PreHashMap::insert(key, value)`,
`precomputed_hash(key)` is computed exactly once when the key replaces an
existing entry (occupied path) and exactly twice when a new entry is
inserted (vacant path: once in `raw_entry_mut` and once before
`insert_with_hasher`). -/
theorem insert_hash_call_count {η : Type v} {ν' : Type v} [DecidableEq η]
    (capK : PreHashCap α η) (m : PreHashMap α ν') (key : α) (value : ν') :
    (PreHashMap.insertInstr capK m key value).2.1
      = if (hbFromHash m.hashbrown (capK.precomputed_hash key) fun candidate =>
              decide (capK.hashed_value key = capK.hashed_value candidate)).isSome
        then 1 else 2 := by
  cases h : hbFromHash m.hashbrown (capK.precomputed_hash key) fun candidate =>
      decide (capK.hashed_value key = capK.hashed_value candidate) with
  | none => simp [PreHashMap.insertInstr, h]
  | some kv => simp [PreHashMap.insertInstr, h]

/-- The element-by-element copy into the fresh payload region reproduces
the source slice. -/
theorem initSlice_eq {τ : Type u} (h : List τ → Nat) (s : List τ) :
    WithHash.initSlice h s = { hash := h s, value := s } := by
  unfold WithHash.initSlice
  rw [List.ofFn_get]

/-- C2: For every slice `s` (the empty slice included) whose layout
computations succeed, both `Box<WithHash<[T]>>::from(s)` and
`Rc<WithHash<[T]>>::from(s)` allocate their computed layout (so the
header-only layout is still allocated at length zero) and produce a
carrier whose payload equals `s` — in particular with payload length
`s.len()` and element-wise-equal contents — and whose precomputed hash is
`hash(s)`; at length zero that hash is the hash function's value on empty
input. -/
theorem slice_carriers_payload_and_hash {τ : Type u} (sizeT alignT : Nat)
    (h : List τ → Nat) (s : List τ) (whLayout : Layout) (whOff : Nat)
    (hwh : WithHash.slice_layout sizeT alignT s.length = some (whLayout, whOff))
    (rcLayout : Layout) (rcOff : Nat)
    (hrc : rcbox_layout_and_value_offset whLayout = some (rcLayout, rcOff)) :
    boxWithHashFromSlice sizeT alignT h s
      = (some { hash := h s, value := s }, [AllocEvent.alloc whLayout])
    ∧ rcWithHashFromSlice sizeT alignT h s
      = (some { refcount := 1, value := { hash := h s, value := s } },
         [AllocEvent.alloc rcLayout]) := by
  constructor
  · simp [boxWithHashFromSlice, WithHash.new_raw_boxed_slice, hwh, initSlice_eq]
  · simp [rcWithHashFromSlice, RcBox.new_withhash_slice, hwh, hrc, initSlice_eq]

/-- C2 (witness): the empty `u32`-like slice (size 4, align 4) allocates
the header-only 8-byte layout and stores the hash of the empty input, and
the slice `[1, 2, 3]` of 8-byte elements yields payload `[1, 2, 3]` and
its hash, through both the boxed and the `Rc` constructors. -/
theorem slice_carriers_payload_and_hash_witness :
    (boxWithHashFromSlice 4 4 List.length ([] : List Nat)
        = (some { hash := 0, value := [] }, [AllocEvent.alloc ⟨8, 8⟩])
      ∧ rcWithHashFromSlice 4 4 List.length ([] : List Nat)
        = (some { refcount := 1, value := { hash := 0, value := [] } },
           [AllocEvent.alloc ⟨16, 8⟩]))
    ∧ (boxWithHashFromSlice 8 8 List.length [1, 2, 3]
        = (some { hash := 3, value := [1, 2, 3] }, [AllocEvent.alloc ⟨32, 8⟩])
      ∧ rcWithHashFromSlice 8 8 List.length [1, 2, 3]
        = (some { refcount := 1, value := { hash := 3, value := [1, 2, 3] } },
           [AllocEvent.alloc ⟨40, 8⟩])) := by
  constructor
  · exact slice_carriers_payload_and_hash 4 4 List.length [] ⟨8, 8⟩ 8 (by decide)
      ⟨16, 8⟩ 8 (by decide)
  · exact slice_carriers_payload_and_hash 8 8 List.length [1, 2, 3] ⟨32, 8⟩ 8 (by decide)
      ⟨40, 8⟩ 8 (by decide)

/-- C8: whenever the slice layout computation overflows
(`Layout::array` or the header `extend` failing), the construction
panics — for the boxed and the `Rc` slice constructors alike — and the
event trace is the panic alone: no allocation call is made on the
overflow path. -/
theorem layout_overflow_panics_before_alloc {τ : Type u} (sizeT alignT : Nat)
    (h : List τ → Nat) (s : List τ)
    (hov : WithHash.slice_layout sizeT alignT s.length = none) :
    WithHash.new_raw_boxed_slice sizeT alignT h s = (none, [AllocEvent.panicked])
    ∧ RcBox.new_withhash_slice sizeT alignT h s = (none, [AllocEvent.panicked]) := by
  constructor
  · simp [WithHash.new_raw_boxed_slice, hov]
  · simp [RcBox.new_withhash_slice, hov]

/-- C8 (witness): a slice of `2^62` eight-byte elements overflows the
layout computation (`8 * 2^62 > isize::MAX`); both constructions panic
with no allocation event. -/
theorem layout_overflow_panics_before_alloc_witness :
    WithHash.slice_layout 8 8 (List.replicate (2 ^ 62) (0 : Nat)).length = none
    ∧ WithHash.new_raw_boxed_slice 8 8 List.length (List.replicate (2 ^ 62) (0 : Nat))
        = (none, [AllocEvent.panicked])
    ∧ RcBox.new_withhash_slice 8 8 List.length (List.replicate (2 ^ 62) (0 : Nat))
        = (none, [AllocEvent.panicked]) := by
  have hov : WithHash.slice_layout 8 8 (List.replicate (2 ^ 62) (0 : Nat)).length = none := by
    rw [List.length_replicate]
    decide
  have hmain := layout_overflow_panics_before_alloc 8 8 List.length
    (List.replicate (2 ^ 62) (0 : Nat)) hov
  exact ⟨hov, hmain.1, hmain.2⟩

/-- A live balanced state: `k` handles, refcount `k`, never freed,
no allocator traffic yet, no misuse. -/
def RcState.live (k : Nat) : RcState :=
  { refcount := k, handles := k, freed := false, deallocs := 0
    payloadDrops := 0, invalidAccess := false, panicked := false }

theorem RcState.new_eq_live : RcState.new = RcState.live 1 := rfl

theorem RcState.clone_live (k : Nat) (hk : k + 1 ≤ usizeMax) :
    (RcState.live k).clone = RcState.live (k + 1) := by
  simp [RcState.clone, RcState.live, Nat.not_lt.mpr hk]

theorem RcState.cloneN_live (n : Nat) : ∀ k : Nat, k + n ≤ usizeMax →
    RcState.cloneN n (RcState.live k) = RcState.live (k + n) := by
  induction n with
  | zero => intro k _; rfl
  | succ n ih =>
    intro k hk
    have h1 : k + 1 ≤ usizeMax := by omega
    calc RcState.cloneN (n + 1) (RcState.live k)
        = RcState.cloneN n (RcState.live k).clone := rfl
      _ = RcState.cloneN n (RcState.live (k + 1)) := by rw [RcState.clone_live k h1]
      _ = RcState.live (k + 1 + n) := ih (k + 1) (by omega)
      _ = RcState.live (k + (n + 1)) := by ring_nf

theorem RcState.drop_live_of_ge_two (k : Nat) (hk : 2 ≤ k) :
    (RcState.live k).dropHandle = RcState.live (k - 1) := by
  simp only [RcState.dropHandle, RcState.live]
  have h1 : k - 1 ≠ 0 := by omega
  simp [h1]

/-- The final state after the last handle is dropped: the payload is
destructed and the block deallocated exactly once (the refcount cell is
stale — the block no longer exists). -/
def RcState.dead : RcState :=
  { refcount := 1, handles := 0, freed := true, deallocs := 1
    payloadDrops := 1, invalidAccess := false, panicked := false }

theorem RcState.drop_live_one : (RcState.live 1).dropHandle = RcState.dead := by
  simp [RcState.dropHandle, RcState.live, RcState.dead]

theorem RcState.dropN_live (m : Nat) : ∀ k : Nat, m < k →
    RcState.dropN m (RcState.live k) = RcState.live (k - m) := by
  induction m with
  | zero => intro k _; rfl
  | succ m ih =>
    intro k hk
    calc RcState.dropN (m + 1) (RcState.live k)
        = RcState.dropN m (RcState.live k).dropHandle := rfl
      _ = RcState.dropN m (RcState.live (k - 1)) := by
            rw [RcState.drop_live_of_ge_two k (by omega)]
      _ = RcState.live (k - 1 - m) := ih (k - 1) (by omega)
      _ = RcState.live (k - (m + 1)) := by congr 1; omega

theorem RcState.dropN_all (k : Nat) (hk : 1 ≤ k) :
    RcState.dropN k (RcState.live k) = RcState.dead := by
  induction k with
  | zero => omega
  | succ k ih =>
    cases Nat.eq_zero_or_pos k with
    | inl h0 =>
      subst h0
      calc RcState.dropN 1 (RcState.live 1) = (RcState.live 1).dropHandle := rfl
        _ = RcState.dead := RcState.drop_live_one
    | inr hpos =>
      calc RcState.dropN (k + 1) (RcState.live (k + 1))
          = RcState.dropN k (RcState.live (k + 1)).dropHandle := rfl
        _ = RcState.dropN k (RcState.live k) := by
              rw [RcState.drop_live_of_ge_two (k + 1) (by omega)]
              simp
        _ = RcState.dead := ih hpos

/-- C7: the reference-count lifecycle. While the block is live, `Clone`
increments the count by one and `Drop` decrements it by one; the drop
that takes the count from 1 to 0 destructs the payload and deallocates
the block. In the balanced scenario — `n` clones of a fresh `Rc` followed
by `n + 1` drops — every intermediate state with `k ≤ n` drops has
`refcount = handles = n + 1 - k ≥ 1` (so the count is at least 1 while
any handle exists, and nothing is deallocated yet), and the final state
is `dead`: zero handles, exactly one `drop_in_place`, exactly one
`dealloc`, and no access to the block after it was freed. -/
theorem rc_refcount_lifecycle (n : Nat) (hn : n + 1 ≤ usizeMax) :
    (∀ s : RcState, s.freed = false → s.refcount + 1 ≤ usizeMax →
      s.clone = { s with refcount := s.refcount + 1, handles := s.handles + 1 })
    ∧ (∀ s : RcState, s.freed = false → 2 ≤ s.refcount →
      s.dropHandle = { s with refcount := s.refcount - 1, handles := s.handles - 1 })
    ∧ (∀ s : RcState, s.freed = false → s.refcount = 1 →
      s.dropHandle = { s with handles := s.handles - 1, freed := true
                              deallocs := s.deallocs + 1
                              payloadDrops := s.payloadDrops + 1 })
    ∧ RcState.cloneN n RcState.new = RcState.live (n + 1)
    ∧ (∀ k, k ≤ n →
        RcState.dropN k (RcState.cloneN n RcState.new) = RcState.live (n + 1 - k))
    ∧ RcState.dropN (n + 1) (RcState.cloneN n RcState.new) = RcState.dead := by
  have hclone : RcState.cloneN n RcState.new = RcState.live (n + 1) := by
    rw [RcState.new_eq_live, RcState.cloneN_live n 1 (by omega)]
    congr 1
    omega
  refine ⟨?_, ?_, ?_, hclone, ?_, ?_⟩
  · intro s h1 h2
    simp [RcState.clone, h1, Nat.not_lt.mpr h2]
  · intro s h1 h2
    have h3 : s.refcount - 1 ≠ 0 := by omega
    simp [RcState.dropHandle, h1, h3]
  · intro s h1 h2
    simp [RcState.dropHandle, h1, h2]
  · intro k hk
    rw [hclone, RcState.dropN_live k (n + 1) (by omega)]
  · rw [hclone, RcState.dropN_all (n + 1) (by omega)]

/-- C7 (witness): two clones followed by three drops deallocate the block
exactly once with no use after free. -/
theorem rc_refcount_lifecycle_witness :
    2 + 1 ≤ usizeMax
    ∧ RcState.dropN 3 (RcState.cloneN 2 RcState.new) = RcState.dead := by
  have h : 2 + 1 ≤ usizeMax := by decide
  exact ⟨h, (rc_refcount_lifecycle 2 h).2.2.2.2.2⟩

/-! ### Map semantics: hash-consistent states

The `PreHash` contract ties the stored hash to the hashed value: a carrier
is well formed when its precomputed hash is the hash function applied to
its hashed value, and a map state is well formed when every entry is
stored under the hash of its key's hashed value and every stored key is a
well-formed carrier (which is what `insert` maintains). Under these
conditions the engine's explicit-hash-plus-equality search coincides with
a plain search by hashed-value equality. -/

/-- The key's precomputed hash is the hash function applied to its hashed
value (true of every carrier built by `WithHash::from`). -/
def KeyWf {κ : Type u} {η : Type v} (capK : PreHashCap κ η) (hf : η → Nat) (key : κ) : Prop :=
  capK.precomputed_hash key = hf (capK.hashed_value key)

/-- Every entry is stored under the hash of its key's hashed value, by a
well-formed key. -/
def MapWf {κ : Type u} {η : Type v} {ν' : Type v} (capK : PreHashCap κ η) (hf : η → Nat)
    (m : PreHashMap κ ν') : Prop :=
  ∀ e ∈ m.hashbrown, e.1 = hf (capK.hashed_value e.2.1) ∧ KeyWf capK hf e.2.1

/-- On a hash-consistent entry sequence, the engine search by explicit
hash plus hashed-value equality finds exactly the first entry whose
stored key's hashed value equals the query's: the hash comparison is
subsumed by the equality. -/
theorem hbFromHash_eq_find {κ : Type u} {η : Type v} {ν' : Type v} [DecidableEq η]
    (capK : PreHashCap κ η) (hf : η → Nat) (entries : List (Nat × κ × ν'))
    (hwf : ∀ e ∈ entries, e.1 = hf (capK.hashed_value e.2.1) ∧ KeyWf capK hf e.2.1)
    (key : κ) (hk : KeyWf capK hf key) :
    hbFromHash entries (capK.precomputed_hash key)
        (fun candidate => decide (capK.hashed_value key = capK.hashed_value candidate))
      = (entries.find? fun e =>
          decide (capK.hashed_value key = capK.hashed_value e.2.1)).map (fun e => e.2) := by
  induction entries with
  | nil => rfl
  | cons e rest ih =>
    obtain ⟨h0, k0, v0⟩ := e
    obtain ⟨he1, _he2⟩ := hwf (h0, k0, v0) (List.mem_cons_self _ _)
    have he1' : h0 = hf (capK.hashed_value k0) := he1
    have hrest := fun e he => hwf e (List.mem_cons_of_mem _ he)
    by_cases hv : capK.hashed_value key = capK.hashed_value k0
    · have hh : h0 = capK.precomputed_hash key := by
        rw [he1', hk, hv]
      simp [hbFromHash, List.find?, hh, hv]
    · have hcond : ¬ (h0 = capK.precomputed_hash key
          ∧ (decide (capK.hashed_value key = capK.hashed_value k0)) = true) := by
        simp [hv]
      simp only [hbFromHash, List.find?]
      rw [if_neg (by simpa using hcond)]
      simpa [hv] using ih hrest

/-- The value-replacement step of the occupied arm, phrased over the
stored key alone (the hash comparison again subsumed by equality). -/
def replaceValueBy {κ : Type u} {ν' : Type v} (p : κ → Bool) (value : ν') :
    List (Nat × κ × ν') → List (Nat × κ × ν')
  | [] => []
  | (h0, k0, v0) :: rest =>
    if p k0 then (h0, k0, value) :: rest
    else (h0, k0, v0) :: replaceValueBy p value rest

/-- On a hash-consistent entry sequence, `RawOccupiedEntryMut::insert`
replaces the value of the first entry whose stored key's hashed value
equals the query's. -/
theorem hbReplaceValue_eq_replaceBy {κ : Type u} {η : Type v} {ν' : Type v} [DecidableEq η]
    (capK : PreHashCap κ η) (hf : η → Nat) (entries : List (Nat × κ × ν'))
    (hwf : ∀ e ∈ entries, e.1 = hf (capK.hashed_value e.2.1) ∧ KeyWf capK hf e.2.1)
    (key : κ) (hk : KeyWf capK hf key) (value : ν') :
    hbReplaceValue entries (capK.precomputed_hash key)
        (fun candidate => decide (capK.hashed_value key = capK.hashed_value candidate)) value
      = replaceValueBy
          (fun k0 => decide (capK.hashed_value key = capK.hashed_value k0)) value entries := by
  induction entries with
  | nil => rfl
  | cons e rest ih =>
    obtain ⟨h0, k0, v0⟩ := e
    obtain ⟨he1, _he2⟩ := hwf (h0, k0, v0) (List.mem_cons_self _ _)
    have he1' : h0 = hf (capK.hashed_value k0) := he1
    have hrest := fun e he => hwf e (List.mem_cons_of_mem _ he)
    by_cases hv : capK.hashed_value key = capK.hashed_value k0
    · have hh : h0 = capK.precomputed_hash key := by
        rw [he1', hk, hv]
      simp [hbReplaceValue, replaceValueBy, hh, hv]
    · have hcond : ¬ (h0 = capK.precomputed_hash key
          ∧ (decide (capK.hashed_value key = capK.hashed_value k0)) = true) := by
        simp [hv]
      simp only [hbReplaceValue, replaceValueBy]
      rw [if_neg (by simpa using hcond), if_neg (by simpa using hv)]
      rw [ih hrest]

/-- The two branches of `insert` on a hash-consistent map, shared by the
claims about `insert`: if some entry's stored key has the new key's
hashed value, `insert` returns its previous value and replaces exactly
that entry's value; otherwise it returns `none` and stores a new entry
under the key's precomputed hash. -/
theorem insert_branches {κ : Type u} {η : Type v} {ν' : Type v} [DecidableEq η]
    (capK : PreHashCap κ η) (hf : η → Nat) (m : PreHashMap κ ν') (key : κ) (value : ν')
    (hwf : MapWf capK hf m) (hk : KeyWf capK hf key) :
    (∀ e, (m.hashbrown.find? fun e =>
          decide (capK.hashed_value key = capK.hashed_value e.2.1)) = some e →
      PreHashMap.insert capK m key value
        = (some e.2.2,
           ⟨replaceValueBy
             (fun k0 => decide (capK.hashed_value key = capK.hashed_value k0))
             value m.hashbrown⟩))
    ∧ ((m.hashbrown.find? fun e =>
          decide (capK.hashed_value key = capK.hashed_value e.2.1)) = none →
      PreHashMap.insert capK m key value
        = (none, ⟨(capK.precomputed_hash key, key, value) :: m.hashbrown⟩)) := by
  have habs := hbFromHash_eq_find capK hf m.hashbrown hwf key hk
  have hrep := hbReplaceValue_eq_replaceBy capK hf m.hashbrown hwf key hk value
  constructor
  · intro e hfind
    simp [PreHashMap.insert, PreHashMap.insertInstr, habs, hfind, hrep]
  · intro hfind
    simp [PreHashMap.insert, PreHashMap.insertInstr, habs, hfind]

/-- C4: on a hash-consistent map, `insert(key, value)` with a key whose
hashed value equals an existing entry's replaces that entry's value and
returns `Some` of the previous value; with a key equal to no existing
entry it inserts a new entry under the key's precomputed hash and
returns `None`. -/
theorem map_insert_replace_or_new {κ : Type u} {η : Type v} {ν' : Type v} [DecidableEq η]
    (capK : PreHashCap κ η) (hf : η → Nat) (m : PreHashMap κ ν') (key : κ) (value : ν')
    (hwf : MapWf capK hf m) (hk : KeyWf capK hf key) :
    (∀ e, (m.hashbrown.find? fun e =>
          decide (capK.hashed_value key = capK.hashed_value e.2.1)) = some e →
      PreHashMap.insert capK m key value
        = (some e.2.2,
           ⟨replaceValueBy
             (fun k0 => decide (capK.hashed_value key = capK.hashed_value k0))
             value m.hashbrown⟩))
    ∧ ((m.hashbrown.find? fun e =>
          decide (capK.hashed_value key = capK.hashed_value e.2.1)) = none →
      PreHashMap.insert capK m key value
        = (none, ⟨(capK.precomputed_hash key, key, value) :: m.hashbrown⟩)) :=
  insert_branches capK hf m key value hwf hk

/-- C4 (witness): on the two-entry map `{1 ↦ 10, 2 ↦ 20}` (hashes = the
identity), inserting at an equal key `2` returns the previous value `20`
and replaces it with `99`; inserting at the fresh key `3` returns `none`
and stores `(3, key, 99)` in front. -/
theorem map_insert_replace_or_new_witness :
    (PreHashMap.insert WithHash.cap
        (⟨[(1, ⟨1, 1⟩, 10), (2, ⟨2, 2⟩, 20)]⟩ : PreHashMap (WithHash Nat) Nat)
        ⟨2, 2⟩ 99
      = (some 20, ⟨[(1, ⟨1, 1⟩, 10), (2, ⟨2, 2⟩, 99)]⟩))
    ∧ (PreHashMap.insert WithHash.cap
        (⟨[(1, ⟨1, 1⟩, 10), (2, ⟨2, 2⟩, 20)]⟩ : PreHashMap (WithHash Nat) Nat)
        ⟨3, 3⟩ 99
      = (none, ⟨[(3, ⟨3, 3⟩, 99), (1, ⟨1, 1⟩, 10), (2, ⟨2, 2⟩, 20)]⟩)) := by
  have hwf : MapWf WithHash.cap (fun n => n)
      (⟨[(1, ⟨1, 1⟩, 10), (2, ⟨2, 2⟩, 20)]⟩ : PreHashMap (WithHash Nat) Nat) := by
    intro e he
    simp only [List.mem_cons, List.not_mem_nil, or_false] at he
    rcases he with h | h <;> subst h <;> exact ⟨rfl, rfl⟩
  constructor
  · have := (map_insert_replace_or_new WithHash.cap (fun n => n)
      (⟨[(1, ⟨1, 1⟩, 10), (2, ⟨2, 2⟩, 20)]⟩ : PreHashMap (WithHash Nat) Nat)
      ⟨2, 2⟩ 99 hwf rfl).1 (2, ⟨2, 2⟩, 20) (by decide)
    simpa using this
  · have := (map_insert_replace_or_new WithHash.cap (fun n => n)
      (⟨[(1, ⟨1, 1⟩, 10), (2, ⟨2, 2⟩, 20)]⟩ : PreHashMap (WithHash Nat) Nat)
      ⟨3, 3⟩ 99 hwf rfl).2 (by decide)
    simpa using this

/-- Positional characterisation of the value replacement: the sequence
splits as the unmatched prefix, the matched entry, and the untouched
suffix; the replacement keeps the prefix, the suffix, and the matched
entry's stored hash and key, changing only its value. -/
theorem replaceValueBy_split {κ : Type u} {ν' : Type v} (p : κ → Bool) (value : ν')
    (l : List (Nat × κ × ν')) (e : Nat × κ × ν')
    (hfind : (l.find? fun x => p x.2.1) = some e) :
    ∃ l1 l2, l = l1 ++ e :: l2 ∧ (∀ x ∈ l1, p x.2.1 = false) ∧ p e.2.1 = true
      ∧ replaceValueBy p value l = l1 ++ (e.1, e.2.1, value) :: l2 := by
  induction l with
  | nil => simp [List.find?] at hfind
  | cons x rest ih =>
    obtain ⟨h0, k0, v0⟩ := x
    by_cases hp : p k0
    · have hx : e = (h0, k0, v0) := by
        have : List.find? (fun x => p x.2.1) ((h0, k0, v0) :: rest) = some (h0, k0, v0) := by
          simp [List.find?, hp]
        rw [this] at hfind
        exact (Option.some.injEq _ _).mp hfind.symm
      subst hx
      refine ⟨[], rest, by simp, by simp, hp, ?_⟩
      simp [replaceValueBy, hp]
    · have hfind' : (rest.find? fun x => p x.2.1) = some e := by
        simpa [List.find?, hp] using hfind
      obtain ⟨l1, l2, hsplit, hpre, hmatch, hrepl⟩ := ih hfind'
      refine ⟨(h0, k0, v0) :: l1, l2, by simp [hsplit], ?_, hmatch, ?_⟩
      · intro x hx
        rcases List.mem_cons.mp hx with h | h
        · subst h; simpa using hp
        · exact hpre x h
      · simp [replaceValueBy, hp, hrepl]

/-- C10: `insert` never replaces the stored key and touches no other
entry. On a hash-consistent map: when `insert(key, value)` finds an
existing entry whose hashed value equals the new key's, the map splits
around that entry, the unmatched prefix and the suffix are unchanged, and
the matched entry keeps its stored hash and stored key (the supplied key
wrapper is discarded) with only its value replaced; when no entry
matches, the new entry is placed in front and every existing entry is
unchanged. -/
theorem insert_preserves_stored_key_and_frame {κ : Type u} {η : Type v} {ν' : Type v}
    [DecidableEq η] (capK : PreHashCap κ η) (hf : η → Nat) (m : PreHashMap κ ν')
    (key : κ) (value : ν') (hwf : MapWf capK hf m) (hk : KeyWf capK hf key) :
    (∀ e, (m.hashbrown.find? fun e =>
          decide (capK.hashed_value key = capK.hashed_value e.2.1)) = some e →
      ∃ l1 l2, m.hashbrown = l1 ++ e :: l2
        ∧ (∀ x ∈ l1, ¬ capK.hashed_value key = capK.hashed_value x.2.1)
        ∧ (PreHashMap.insert capK m key value).2.hashbrown
            = l1 ++ (e.1, e.2.1, value) :: l2)
    ∧ ((m.hashbrown.find? fun e =>
          decide (capK.hashed_value key = capK.hashed_value e.2.1)) = none →
      (PreHashMap.insert capK m key value).2.hashbrown
        = (capK.precomputed_hash key, key, value) :: m.hashbrown) := by
  have hbr := insert_branches capK hf m key value hwf hk
  constructor
  · intro e hfind
    obtain ⟨l1, l2, hsplit, hpre, _hmatch, hrepl⟩ := replaceValueBy_split
      (fun k0 => decide (capK.hashed_value key = capK.hashed_value k0)) value
      m.hashbrown e (by simpa using hfind)
    refine ⟨l1, l2, hsplit, ?_, ?_⟩
    · intro x hx
      have := hpre x hx
      simpa using this
    · rw [hbr.1 e hfind]
      exact hrepl
  · intro hfind
    rw [hbr.2 hfind]

/-- C10 (witness): replacing at key `2` in `{1 ↦ 10, 2 ↦ 20}` leaves the
stored keys, hashes, and the other entry untouched; inserting fresh key
`3` prepends and leaves both old entries untouched. -/
theorem insert_preserves_stored_key_and_frame_witness :
    ((PreHashMap.insert WithHash.cap
        (⟨[(1, ⟨1, 1⟩, 10), (2, ⟨2, 2⟩, 20)]⟩ : PreHashMap (WithHash Nat) Nat)
        ⟨2, 2⟩ 99).2.hashbrown = [(1, ⟨1, 1⟩, 10), (2, ⟨2, 2⟩, 99)])
    ∧ ((PreHashMap.insert WithHash.cap
        (⟨[(1, ⟨1, 1⟩, 10), (2, ⟨2, 2⟩, 20)]⟩ : PreHashMap (WithHash Nat) Nat)
        ⟨3, 3⟩ 99).2.hashbrown
      = [(3, ⟨3, 3⟩, 99), (1, ⟨1, 1⟩, 10), (2, ⟨2, 2⟩, 20)]) := by
  have hwf : MapWf WithHash.cap (fun n => n)
      (⟨[(1, ⟨1, 1⟩, 10), (2, ⟨2, 2⟩, 20)]⟩ : PreHashMap (WithHash Nat) Nat) := by
    intro e he
    simp only [List.mem_cons, List.not_mem_nil, or_false] at he
    rcases he with h | h <;> subst h <;> exact ⟨rfl, rfl⟩
  constructor
  · obtain ⟨l1, l2, hsplit, _hpre, hrepl⟩ :=
      (insert_preserves_stored_key_and_frame WithHash.cap (fun n => n)
        (⟨[(1, ⟨1, 1⟩, 10), (2, ⟨2, 2⟩, 20)]⟩ : PreHashMap (WithHash Nat) Nat)
        ⟨2, 2⟩ 99 hwf rfl).1 (2, ⟨2, 2⟩, 20) (by decide)
    have hl1 : l1 = [(1, ⟨1, 1⟩, 10)] ∧ l2 = [] := by
      cases l1 with
      | nil => simp at hsplit
      | cons a l1' =>
        cases l1' with
        | nil =>
          simp only [List.cons_append, List.nil_append, List.cons.injEq] at hsplit
          exact ⟨by simp [hsplit.1], by simpa using hsplit.2⟩
        | cons b l1'' => simpa using congrArg List.length hsplit
    rw [hrepl, hl1.1, hl1.2]
    rfl
  · exact (insert_preserves_stored_key_and_frame WithHash.cap (fun n => n)
      (⟨[(1, ⟨1, 1⟩, 10), (2, ⟨2, 2⟩, 20)]⟩ : PreHashMap (WithHash Nat) Nat)
      ⟨3, 3⟩ 99 hwf rfl).2 (by decide)

/-- The entry written for the pair `(k, v)` by the build scenario. -/
def builtEntry {ν' : Type u} (h : α → Nat) (p : α × ν') : Nat × WithHash α × ν' :=
  (h p.1, WithHash.fromValue h p.1, p.2)

/-- Inserting pairwise-distinct carriers left to right always takes the
vacant path, so the resulting table is the built entries in reverse
insertion order on top of the accumulator. -/
theorem buildFromPairs_go {ν' : Type u} [DecidableEq α] (h : α → Nat) :
    ∀ (pairs : List (α × ν')) (m : PreHashMap (WithHash α) ν'),
      MapWf WithHash.cap h m →
      (∀ p ∈ pairs, ∀ e ∈ m.hashbrown, (e.2.1).value ≠ p.1) →
      (pairs.map Prod.fst).Nodup →
      (pairs.foldl (fun m p =>
          (PreHashMap.insert WithHash.cap m (WithHash.fromValue h p.1) p.2).2) m).hashbrown
        = (pairs.map (builtEntry h)).reverse ++ m.hashbrown := by
  intro pairs
  induction pairs with
  | nil => intro m _ _ _; simp
  | cons p rest ih =>
    intro m hwf hdisj hnodup
    obtain ⟨a, b⟩ := p
    have hk : KeyWf WithHash.cap h (WithHash.fromValue h a) := rfl
    have hfind : (m.hashbrown.find? fun e =>
        decide (WithHash.cap.hashed_value (WithHash.fromValue h a)
          = WithHash.cap.hashed_value e.2.1)) = none := by
      rw [List.find?_eq_none]
      intro e he
      have := hdisj (a, b) (List.mem_cons_self _ _) e he
      simpa [WithHash.cap, WithHash.hashed_value, WithHash.fromValue] using
        fun hqe => this hqe.symm
    have hins := (insert_branches WithHash.cap h m (WithHash.fromValue h a) b hwf hk).2 hfind
    have hm' : (PreHashMap.insert WithHash.cap m (WithHash.fromValue h a) b).2
        = ⟨builtEntry h (a, b) :: m.hashbrown⟩ := by
      rw [hins]
      rfl
    have hwf' : MapWf WithHash.cap h (⟨builtEntry h (a, b) :: m.hashbrown⟩ :
        PreHashMap (WithHash α) ν') := by
      intro e he
      rcases List.mem_cons.mp he with hE | hE
      · subst hE; exact ⟨rfl, rfl⟩
      · exact hwf e hE
    have hdisj' : ∀ q ∈ rest, ∀ e ∈ (builtEntry h (a, b) :: m.hashbrown),
        (e.2.1).value ≠ q.1 := by
      intro q hq e he
      rcases List.mem_cons.mp he with hE | hE
      · subst hE
        intro hcontra
        have haq : a = q.1 := hcontra
        have : q.1 ∈ rest.map Prod.fst := List.mem_map_of_mem Prod.fst hq
        rw [← haq] at this
        simp only [List.map_cons, List.nodup_cons] at hnodup
        exact hnodup.1 this
      · exact hdisj q (List.mem_cons_of_mem _ hq) e hE
    have hnodup' : (rest.map Prod.fst).Nodup := by
      simp only [List.map_cons, List.nodup_cons] at hnodup
      exact hnodup.2
    calc ((((a, b) :: rest).foldl (fun m p =>
            (PreHashMap.insert WithHash.cap m (WithHash.fromValue h p.1) p.2).2) m)).hashbrown
        = ((rest.foldl (fun m p =>
            (PreHashMap.insert WithHash.cap m (WithHash.fromValue h p.1) p.2).2)
            (⟨builtEntry h (a, b) :: m.hashbrown⟩ : PreHashMap (WithHash α) ν'))).hashbrown := by
          rw [List.foldl_cons, hm']
      _ = (rest.map (builtEntry h)).reverse ++ (builtEntry h (a, b) :: m.hashbrown) :=
          ih _ hwf' hdisj' hnodup'
      _ = (((a, b) :: rest).map (builtEntry h)).reverse ++ m.hashbrown := by
          simp

/-- The build scenario of §8.4/§8.6: the resulting table. -/
theorem buildFromPairs_entries {ν' : Type u} [DecidableEq α] (h : α → Nat)
    (pairs : List (α × ν')) (hnodup : (pairs.map Prod.fst).Nodup) :
    (buildFromPairs h pairs).hashbrown = (pairs.map (builtEntry h)).reverse := by
  have := buildFromPairs_go h pairs (PreHashMap.new (WithHash α) ν')
    (by intro e he; simp [PreHashMap.new] at he)
    (by intro p _ e he; simp [PreHashMap.new] at he)
    hnodup
  simpa [buildFromPairs, PreHashMap.new] using this

/-- C3: the map built by inserting carriers for `n` pairwise-unequal
hashed values answers `get` correctly for any independently constructed
query carrier: a query whose hashed value equals an inserted key's
returns `Some` of that key's value, and a query whose hashed value equals
none of them returns `None`. The hash function `h` is arbitrary — in
particular its collisions (up to all keys sharing one precomputed hash)
never cause an incorrect match, because the hashed-value equality step
decides. -/
theorem map_get_after_inserts {ν' : Type u} [DecidableEq α] (h : α → Nat)
    (pairs : List (α × ν')) (q : α) (hnodup : (pairs.map Prod.fst).Nodup) :
    (∀ v, (q, v) ∈ pairs →
      PreHashMap.get WithHash.cap WithHash.cap (fun a b => decide (a = b))
        (buildFromPairs h pairs) (WithHash.fromValue h q) = some v)
    ∧ (q ∉ pairs.map Prod.fst →
      PreHashMap.get WithHash.cap WithHash.cap (fun a b => decide (a = b))
        (buildFromPairs h pairs) (WithHash.fromValue h q) = none) := by
  have hE := buildFromPairs_entries h pairs hnodup
  have hwfE : MapWf WithHash.cap h (buildFromPairs h pairs) := by
    intro e he
    rw [hE, List.mem_reverse] at he
    obtain ⟨p, _hp, rfl⟩ := List.mem_map.mp he
    exact ⟨rfl, rfl⟩
  have hkq : KeyWf WithHash.cap h (WithHash.fromValue h q) := rfl
  have habs := hbFromHash_eq_find WithHash.cap h (buildFromPairs h pairs).hashbrown
    hwfE (WithHash.fromValue h q) hkq
  have hget : PreHashMap.get WithHash.cap WithHash.cap (fun a b => decide (a = b))
      (buildFromPairs h pairs) (WithHash.fromValue h q)
      = (((buildFromPairs h pairs).hashbrown.find? fun e =>
          decide (q = (e.2.1).value)).map fun e => e.2).map fun kv => kv.2 := by
    rw [PreHashMap.get, PreHashMap.raw_entry]
    rw [show (fun (candidate : WithHash α) =>
        (fun a b => decide (a = b)) (WithHash.cap.hashed_value (WithHash.fromValue h q))
          (WithHash.cap.hashed_value candidate))
      = fun candidate => decide (WithHash.cap.hashed_value (WithHash.fromValue h q)
          = WithHash.cap.hashed_value candidate) from rfl]
    rw [show WithHash.cap.precomputed_hash (WithHash.fromValue h q)
      = WithHash.cap.precomputed_hash (WithHash.fromValue h q) from rfl]
    rw [habs]
    rfl
  constructor
  · intro v hv
    obtain ⟨l1, l2, rfl⟩ := List.append_of_mem hv
    have hq1 : q ∉ l1.map Prod.fst ∧ q ∉ l2.map Prod.fst := by
      rw [List.map_append, List.map_cons] at hnodup
      constructor
      · intro hmem
        rcases (List.nodup_append.mp hnodup) with ⟨_, _, hdisj2⟩
        exact hdisj2 hmem (List.mem_cons_self _ _)
      · rcases (List.nodup_append.mp hnodup) with ⟨_, hnd2, _⟩
        exact (List.nodup_cons.mp hnd2).1
    rw [hget, hE]
    rw [List.map_append, List.map_cons, List.reverse_append, List.reverse_cons,
      List.append_assoc]
    rw [List.find?_append]
    have hnone2 : (((l2.map (builtEntry h)).reverse).find? fun e =>
        decide (q = (e.2.1).value)) = none := by
      rw [List.find?_eq_none]
      intro e he
      rw [List.mem_reverse] at he
      obtain ⟨p, hp, rfl⟩ := List.mem_map.mp he
      simp only [builtEntry, WithHash.fromValue, decide_eq_true_eq]
      intro hqp
      exact hq1.2 (hqp ▸ List.mem_map_of_mem Prod.fst hp)
    rw [hnone2]
    simp [builtEntry, WithHash.fromValue]
  · intro hq
    rw [hget, hE]
    have hnone : (((pairs.map (builtEntry h)).reverse).find? fun e =>
        decide (q = (e.2.1).value)) = none := by
      rw [List.find?_eq_none]
      intro e he
      rw [List.mem_reverse] at he
      obtain ⟨p, hp, rfl⟩ := List.mem_map.mp he
      simp only [builtEntry, WithHash.fromValue, decide_eq_true_eq]
      intro hqp
      exact hq (hqp ▸ List.mem_map_of_mem Prod.fst hp)
    rw [hnone]
    rfl

/-- C3 (witness): with the constant hash function (every key collides on
hash 7), inserting `{1 ↦ 10, 2 ↦ 20}` and querying an independently
constructed carrier for `2` returns `some 20`, while querying `3` — whose
precomputed hash 7 collides with both stored entries — returns `none`. -/
theorem map_get_after_inserts_witness :
    (([((1 : Nat), (10 : Nat)), (2, 20)].map Prod.fst).Nodup)
    ∧ PreHashMap.get WithHash.cap WithHash.cap (fun a b => decide (a = b))
        (buildFromPairs (fun _ => 7) [((1 : Nat), (10 : Nat)), (2, 20)])
        (WithHash.fromValue (fun _ => 7) 2) = some 20
    ∧ PreHashMap.get WithHash.cap WithHash.cap (fun a b => decide (a = b))
        (buildFromPairs (fun _ => 7) [((1 : Nat), (10 : Nat)), (2, 20)])
        (WithHash.fromValue (fun _ => 7) 3) = none := by
  have hnd : (([((1 : Nat), (10 : Nat)), (2, 20)].map Prod.fst).Nodup) := by decide
  refine ⟨hnd, ?_, ?_⟩
  · exact (map_get_after_inserts (fun _ => 7) [((1 : Nat), (10 : Nat)), (2, 20)] 2 hnd).1
      20 (by decide)
  · exact (map_get_after_inserts (fun _ => 7) [((1 : Nat), (10 : Nat)), (2, 20)] 3 hnd).2
      (by decide)

end Prehash
